import Mathlib

/-!
Shallow embedding of the `tmmt` sliding-window validation engines.

The repository provides two engines behind one trait `Mine`:
* `HashMine` (src/src/hash_mine.rs): FIFO window `validation_blocks`
  (`VecDeque`, front = oldest), a `HashMultiSet` `block_pair_sums` holding
  every pairwise sum of distinct window positions, and a counter
  `total_blocks`.
* `TwoPtrMine` (src/src/two_ptr_mine.rs): the same FIFO window, an
  ascending sorted copy `ordered_validation_blocks` (`Vec`), and the same
  counter.
The trait `Mine` (src/src/mine.rs) supplies default algorithms `try_new`,
`try_extend`, `try_create_and_extend` on top of `new` / `try_extend_one`.

Blocks are embedded as `Int`: the Rust code is generic over any type with
equality, ordering and addition, and is instantiated in the repository at
`u128`; `Int` supports exactly the operations used (`+`, `=`, `≤`), and the
code never subtracts or otherwise exercises machine-width behaviour.

Rust panics (`expect` on `pop_front`, `Vec::remove` out of bounds, the
`VALIDATION_WINDOW_SIZE - 1` slice bound underflowing at window size 0) are
embedded as `Option`: `none` models a panic.
-/

deriving instance DecidableEq for Except

namespace Tmmt

/-- Block values; the repository instantiates the generic `Block` trait at
`u128`, an ordered additive type, embedded here as `Int`. -/
abbrev Block := Int

/-- Error type `MineError` of src/src/mine.rs (the const generic
`VALIDATION_WINDOW_SIZE` parameter only affects the error message text, not
the carried data). -/
inductive MineError where
  | invalidInitializationBlocksSize
  | invalidBlock (value : Block) (position : Nat)
deriving DecidableEq

/-- Outcome of a single fallible engine operation: panics are `none`,
ordinary returns are `some` of the next state paired with the `Result`. -/
abbrev StepResult (σ : Type) := Option (σ × Except MineError Unit)

/-- Type of the `try_extend_one` method of an engine with state type `σ`. -/
abbrev StepFn (σ : Type) := σ → Block → StepResult σ

/-- Multiset of sums `l[i] + l[j]` over position pairs `i < j`, as built by
the nested loop in `HashMine::new` (outer loop at position `i`, inner loop
over `skip(i+1)`): the head contributes `head + c` for every later element
`c`, then the tail is processed the same way. -/
def pairSums : List Block → Multiset Block
  | [] => 0
  | b :: rest => ((rest.map fun c => b + c : List Block) : Multiset Block) + pairSums rest

/-- State of `HashMine` (src/src/hash_mine.rs): the `VecDeque` window is a
list with the front (oldest) element first; the `HashMultiSet` is a
`Multiset`. -/
structure HashMine where
  validation_blocks : List Block
  block_pair_sums : Multiset Block
  total_blocks : Nat
deriving DecidableEq

/-- Constructor `HashMine::new`. The Rust slice bound
`VALIDATION_WINDOW_SIZE - 1` underflows when the window size is 0, a panic,
modelled as `none`. The nested insertion loop is `pairSums`, and
`total_blocks` starts at the window size. -/
def HashMine.new (blocks : List Block) : Option HashMine :=
  if blocks.length = 0 then none
  else some
    { validation_blocks := blocks
      block_pair_sums := pairSums blocks
      total_blocks := blocks.length }

/-- Step `HashMine::try_extend_one`: reject (state untouched) when the value
is absent from `block_pair_sums`; otherwise pop the oldest window element
(`expect` panic when empty, modelled `none`), and for each remaining window
element `b` remove one occurrence of `old + b` and insert `new + b`, then
push the new value and bump the counter. -/
def HashMine.tryExtendOne (m : HashMine) (new_block : Block) : StepResult HashMine :=
  if new_block ∉ m.block_pair_sums then
    some (m, .error (.invalidBlock new_block (m.total_blocks + 1)))
  else
    match m.validation_blocks with
    | [] => none
    | old_block :: rest =>
      some
        ({ validation_blocks := rest ++ [new_block]
           block_pair_sums :=
             rest.foldl (fun s b => (new_block + b) ::ₘ s.erase (old_block + b))
               m.block_pair_sums
           total_blocks := m.total_blocks + 1 }, .ok ())

/-- State of `TwoPtrMine` (src/src/two_ptr_mine.rs). -/
structure TwoPtrMine where
  validation_blocks : List Block
  ordered_validation_blocks : List Block
  total_blocks : Nat
deriving DecidableEq

/-- Constructor `TwoPtrMine::new`: keep the given order as the window and a
`sort_unstable`-ed copy as the ordered blocks. On `Int` every correct sort
returns the same list; `insertionSort` is used as the embedding of
`sort_unstable`. -/
def TwoPtrMine.new (blocks : List Block) : TwoPtrMine :=
  { validation_blocks := blocks
    ordered_validation_blocks := blocks.insertionSort (· ≤ ·)
    total_blocks := blocks.length }

/-- Two-pointer loop of `TwoPtrMine::try_extend_one`. The Rust state is a
low index `i` (iterator `min_to_max`) and a high index `j` (iterator
`max_to_min`); here `gap` is `j - i` and the second index is `i + gap`.
`gap = 0` is the `i == j` exhaustion check returning invalid; a `Less`
comparison advances the low pointer, `Greater` retreats the high pointer,
`Equal` reports a solution pair. -/
def twoPtrGo (a : List Block) (v : Block) : Nat → Nat → Bool
  | 0, _ => false
  | gap + 1, i =>
    let s := a.getD i 0 + a.getD (i + (gap + 1)) 0
    if s < v then twoPtrGo a v gap (i + 1)
    else if s = v then true
    else twoPtrGo a v gap i

/-- Validity check of `TwoPtrMine::try_extend_one`: run the two-pointer loop
from the ends of the sorted copy. On an empty copy the `while let` finds
`None` immediately and control falls through to the (valid) update path, so
the empty case is `true`. -/
def twoPtrCheck (a : List Block) (v : Block) : Bool :=
  match a with
  | [] => true
  | _ :: _ => twoPtrGo a v (a.length - 1) 0

/-- Core loop of Rust `slice::binary_search` (`left`/`right` bounds, probe
at `left + size / 2`), returning `(found, index)`: `(true, mid)` on a match
(`Ok(mid)`), `(false, left)` on exhaustion (`Err(left)`, the insertion
point). The loop shrinks `right - left` every iteration, so `fuel`
iterations suffice whenever `right - left ≤ fuel`. -/
def binSearchGo (a : List Block) (v : Block) : Nat → Nat → Nat → Bool × Nat
  | 0, left, _ => (false, left)
  | fuel + 1, left, right =>
    if right ≤ left then (false, left)
    else
      let mid := left + (right - left) / 2
      let x := a.getD mid 0
      if x < v then binSearchGo a v fuel (mid + 1) right
      else if v < x then binSearchGo a v fuel left mid
      else (true, mid)

/-- Rust `slice::binary_search` over the whole list. -/
def binarySearch (a : List Block) (v : Block) : Bool × Nat :=
  binSearchGo a v a.length 0 a.length

/-- Step `TwoPtrMine::try_extend_one`: two-pointer validity check; on
success pop the oldest window element (`expect` panic modelled `none`) and
push the new one, then fix the sorted copy: `binary_search` for the old
block with `unwrap_or_else(|i| i)` and `Vec::remove` (out-of-bounds panic
modelled `none`), then `binary_search` the insertion point of the new block
and `Vec::insert` it (the insertion index is never past the end). -/
def TwoPtrMine.tryExtendOne (m : TwoPtrMine) (new_block : Block) : StepResult TwoPtrMine :=
  if twoPtrCheck m.ordered_validation_blocks new_block = false then
    some (m, .error (.invalidBlock new_block (m.total_blocks + 1)))
  else
    match m.validation_blocks with
    | [] => none
    | old_block :: rest =>
      let old_block_idx := (binarySearch m.ordered_validation_blocks old_block).2
      if old_block_idx < m.ordered_validation_blocks.length then
        let after_remove := m.ordered_validation_blocks.eraseIdx old_block_idx
        let new_block_idx := (binarySearch after_remove new_block).2
        some
          ({ validation_blocks := rest ++ [new_block]
             ordered_validation_blocks := after_remove.insertIdx new_block_idx new_block
             total_blocks := m.total_blocks + 1 }, .ok ())
      else none

/-- Default method `Mine::try_extend` (src/src/mine.rs): apply
`try_extend_one` to each block in order, propagating the first error via
`?`; `Ok(())` once the iterator is exhausted. A `none` (panic) in a step
propagates. -/
def tryExtend {σ : Type} (step : StepFn σ) : σ → List Block → StepResult σ
  | s, [] => some (s, .ok ())
  | s, b :: rest =>
    match step s b with
    | none => none
    | some (s', .error e) => some (s', .error e)
    | some (s', .ok ()) => tryExtend step s' rest

/-- Helper `take_with_remainder` of src/src/mine.rs: take up to `n` items
into a `Vec`, leaving the remainder (the `size_hint` branch only picks an
allocation capacity and has no observable effect). -/
def take_with_remainder (l : List Block) (n : Nat) : List Block × List Block :=
  (l.take n, l.drop n)

/-- Conversion `TryFrom<Vec<T>> for [T; N]` used by `try_new` and
`try_create_and_extend`: succeeds exactly when the vector length equals the
array length `w`. -/
def vecTryIntoArray (w : Nat) (blocks : List Block) : Option (List Block) :=
  if blocks.length = w then some blocks else none

/-- Default method `Mine::try_new` called with a `Vec` of blocks: convert
the input into a `[B; VALIDATION_WINDOW_SIZE]`, mapping a conversion error
to `InvalidInitializationBlocksSize`, then `new`. Generic in the engine's
checked constructor `mk` (itself `Option`-valued to model panics in
`new`). -/
def tryNew {σ : Type} (w : Nat) (mk : List Block → Option σ) (blocks : List Block) :
    Except MineError (Option σ) :=
  match vecTryIntoArray w blocks with
  | none => .error .invalidInitializationBlocksSize
  | some arr => .ok (mk arr)

/-- Default method `Mine::try_create_and_extend`: split off the first
`w` blocks with `take_with_remainder`, convert them into the array
(failing with `InvalidInitializationBlocksSize` when fewer than `w` were
available), build the engine with `new`, then `try_extend` with the
remainder. `none` models a panic inside `new` or a step. -/
def tryCreateAndExtend {σ : Type} (w : Nat) (mk : List Block → Option σ)
    (step : StepFn σ) (blocks : List Block) : Option (Except MineError Unit) :=
  let p := take_with_remainder blocks w
  match vecTryIntoArray w p.1 with
  | none => some (.error .invalidInitializationBlocksSize)
  | some arr =>
    match mk arr with
    | none => none
    | some m => (tryExtend step m p.2).map Prod.snd

/-- Run `try_extend_one` on every value of a stream in order, regardless of
per-value success, collecting the sequence of accept/reject results;
`none` when any call panics. This is the observable decision sequence the
spec's equivalence property quantifies over. -/
def feedAll {σ : Type} (step : StepFn σ) : σ → List Block → Option (σ × List (Except MineError Unit))
  | s, [] => some (s, [])
  | s, b :: rest =>
    match step s b with
    | none => none
    | some (s', r) =>
      match feedAll step s' rest with
      | none => none
      | some (s'', rs) => some (s'', r :: rs)

/-- State reached after a run in which every value was accepted (`none`
when some value was rejected or a step panicked). -/
def extendAllOk {σ : Type} (step : StepFn σ) : σ → List Block → Option σ
  | s, [] => some s
  | s, b :: rest =>
    match step s b with
    | some (s', .ok ()) => extendAllOk step s' rest
    | _ => none

/-- Specification predicate: `v` is the sum of the window entries at two
distinct positions (duplicate values at distinct positions eligible). -/
def HasPairSum (w : List Block) (v : Block) : Prop :=
  ∃ i j, i ≠ j ∧ i < w.length ∧ j < w.length ∧ w.getD i 0 + w.getD j 0 = v

instance (w : List Block) (v : Block) : Decidable (HasPairSum w v) := by
  unfold HasPairSum
  refine decidable_of_iff
    (∃ i < w.length, ∃ j < w.length, i ≠ j ∧ w.getD i 0 + w.getD j 0 = v) ?_
  constructor
  · rintro ⟨i, hi, j, hj, hij, hv⟩; exact ⟨i, j, hij, hi, hj, hv⟩
  · rintro ⟨i, j, hij, hi, hj, hv⟩; exact ⟨i, hi, j, hj, hij, hv⟩

/-- Values accepted during a run: the stream values paired with `ok`
results. -/
def acceptedOf (bs : List Block) (rs : List (Except MineError Unit)) : List Block :=
  (bs.zip rs).filterMap fun p => match p.2 with | .ok () => some p.1 | .error _ => none

/-- Invariant of a `HashMine` state: the support multiset is exactly the
pair sums of the window, and the window is nonempty. -/
def HashInv (m : HashMine) : Prop :=
  m.block_pair_sums = pairSums m.validation_blocks ∧ m.validation_blocks ≠ []

/-- Invariant of a `TwoPtrMine` state: the sorted copy is an ascending
sorted permutation of the window, and the window is nonempty. -/
def TwoInv (m : TwoPtrMine) : Prop :=
  m.ordered_validation_blocks.Sorted (· ≤ ·) ∧
    m.ordered_validation_blocks.Perm m.validation_blocks ∧
    m.validation_blocks ≠ []

/-! ### Basic index and order utilities -/

lemma getD_lt_length {l : List Block} {i : Nat} (h : i < l.length) :
    l.getD i 0 = l.get ⟨i, h⟩ := by
  rw [List.getD_eq_getElem l 0 h, List.get_eq_getElem]

lemma sorted_getD_mono {l : List Block} (hs : l.Sorted (· ≤ ·)) {i j : Nat}
    (hij : i ≤ j) (hj : j < l.length) : l.getD i 0 ≤ l.getD j 0 := by
  have hi : i < l.length := lt_of_le_of_lt hij hj
  rw [getD_lt_length hi, getD_lt_length hj]
  rcases lt_or_eq_of_le hij with h | h
  · exact hs.rel_get_of_lt h
  · subst h; rfl

lemma mem_iff_getD {l : List Block} {x : Block} :
    x ∈ l ↔ ∃ i, i < l.length ∧ l.getD i 0 = x := by
  rw [List.mem_iff_getElem]
  constructor
  · rintro ⟨i, h, hx⟩
    exact ⟨i, h, by rw [List.getD_eq_getElem l 0 h]; exact hx⟩
  · rintro ⟨i, h, hx⟩
    exact ⟨i, h, by rw [← List.getD_eq_getElem l 0 h]; exact hx⟩

/-! ### Lemmas about `pairSums` -/

lemma pairSums_nil : pairSums [] = 0 := rfl

lemma pairSums_cons (b : Block) (l : List Block) :
    pairSums (b :: l) = ((l.map fun c => b + c : List Block) : Multiset Block) + pairSums l :=
  rfl

lemma pairSums_append_singleton (l : List Block) (x : Block) :
    pairSums (l ++ [x]) = pairSums l + ((l.map fun b => b + x : List Block) : Multiset Block) := by
  induction l with
  | nil => simp [pairSums]
  | cons b bs ih =>
    show pairSums (b :: (bs ++ [x])) = _
    rw [pairSums_cons, ih, pairSums_cons]
    have hmap : ((bs ++ [x]).map fun c => b + c) = (bs.map fun c => b + c) ++ [b + x] := by
      simp
    rw [hmap]
    have hco : (((bs.map fun c => b + c) ++ [b + x] : List Block) : Multiset Block)
        = ((bs.map fun c => b + c : List Block) : Multiset Block) + (b + x) ::ₘ 0 := rfl
    rw [hco]
    have hco2 : ((((b :: bs).map fun c => c + x) : List Block) : Multiset Block)
        = (b + x) ::ₘ ((bs.map fun c => c + x : List Block) : Multiset Block) := by
      simp
    rw [hco2]
    rw [← Multiset.singleton_add, ← Multiset.singleton_add]
    abel

lemma mem_pairSums {l : List Block} {v : Block} :
    v ∈ pairSums l ↔ ∃ i j, i < j ∧ j < l.length ∧ l.getD i 0 + l.getD j 0 = v := by
  induction l with
  | nil =>
    simp only [pairSums_nil, Multiset.not_mem_zero, false_iff]
    rintro ⟨i, j, hij, hj, -⟩
    exact absurd hj (by simp)
  | cons b bs ih =>
    rw [pairSums_cons]
    rw [Multiset.mem_add, Multiset.mem_coe, List.mem_map, ih]
    constructor
    · rintro (⟨c, hc, hv⟩ | ⟨i, j, hij, hj, hv⟩)
      · rcases mem_iff_getD.mp hc with ⟨k, hk, hck⟩
        refine ⟨0, k + 1, Nat.succ_pos k, by simpa using hk, ?_⟩
        rw [List.getD_cons_zero, List.getD_cons_succ, hck]
        exact hv
      · refine ⟨i + 1, j + 1, by omega, by simpa using hj, ?_⟩
        rw [List.getD_cons_succ, List.getD_cons_succ]
        exact hv
    · rintro ⟨i, j, hij, hj, hv⟩
      match i, j with
      | 0, j + 1 =>
        left
        refine ⟨bs.getD j 0, mem_iff_getD.mpr ⟨j, by simpa using hj, rfl⟩, ?_⟩
        rw [List.getD_cons_zero, List.getD_cons_succ] at hv
        exact hv
      | i + 1, j + 1 =>
        right
        refine ⟨i, j, by omega, by simpa using hj, ?_⟩
        rw [List.getD_cons_succ, List.getD_cons_succ] at hv
        exact hv

lemma hasPairSum_iff_lt {l : List Block} {v : Block} :
    HasPairSum l v ↔ ∃ i j, i < j ∧ j < l.length ∧ l.getD i 0 + l.getD j 0 = v := by
  constructor
  · rintro ⟨i, j, hij, hi, hj, hv⟩
    rcases lt_or_gt_of_ne hij with h | h
    · exact ⟨i, j, h, hj, hv⟩
    · exact ⟨j, i, h, hi, by rw [add_comm]; exact hv⟩
  · rintro ⟨i, j, hij, hj, hv⟩
    exact ⟨i, j, Nat.ne_of_lt hij, lt_trans hij hj, hj, hv⟩

lemma mem_pairSums_iff_hasPairSum {l : List Block} {v : Block} :
    v ∈ pairSums l ↔ HasPairSum l v := by
  rw [mem_pairSums, hasPairSum_iff_lt]

lemma pairSums_perm {l l' : List Block} (h : l.Perm l') : pairSums l = pairSums l' := by
  induction h with
  | nil => rfl
  | cons x h ih =>
    rw [pairSums_cons, pairSums_cons, ih, Multiset.coe_eq_coe.mpr (h.map fun c => x + c)]
  | swap x y l =>
    rw [pairSums_cons, pairSums_cons, pairSums_cons, pairSums_cons]
    have h1 : (((x :: l).map fun c => y + c : List Block) : Multiset Block)
        = (y + x) ::ₘ ((l.map fun c => y + c : List Block) : Multiset Block) := by simp
    have h2 : (((y :: l).map fun c => x + c : List Block) : Multiset Block)
        = (x + y) ::ₘ ((l.map fun c => x + c : List Block) : Multiset Block) := by simp
    rw [h1, h2, ← Multiset.singleton_add, ← Multiset.singleton_add]
    have hxy : y + x = x + y := add_comm y x
    rw [hxy]
    abel
  | trans _ _ ih1 ih2 => rw [ih1, ih2]

/-! ### Correctness of the two-pointer scan -/

lemma twoPtrGo_spec {a : List Block} (hs : a.Sorted (· ≤ ·)) (v : Block) :
    ∀ gap i, i + gap < a.length →
      (twoPtrGo a v gap i = true ↔
        ∃ p q, i ≤ p ∧ p < q ∧ q ≤ i + gap ∧ a.getD p 0 + a.getD q 0 = v) := by
  intro gap
  induction gap with
  | zero =>
    intro i _
    simp only [twoPtrGo, Bool.false_eq_true, false_iff]
    rintro ⟨p, q, hip, hpq, hq, -⟩
    omega
  | succ gap ih =>
    intro i hi
    rw [twoPtrGo]
    rcases lt_trichotomy (a.getD i 0 + a.getD (i + (gap + 1)) 0) v with hlt | heq | hgt
    · rw [if_pos hlt]
      have hrec := ih (i + 1) (by omega)
      rw [hrec]
      constructor
      · rintro ⟨p, q, hip, hpq, hq, hv⟩
        exact ⟨p, q, by omega, hpq, by omega, hv⟩
      · rintro ⟨p, q, hip, hpq, hq, hv⟩
        refine ⟨p, q, ?_, hpq, by omega, hv⟩
        rcases Nat.eq_or_lt_of_le hip with hpi | hpi
        · exfalso
          have hq' : a.getD q 0 ≤ a.getD (i + (gap + 1)) 0 :=
            sorted_getD_mono hs hq hi
          have : a.getD p 0 + a.getD q 0 ≤ a.getD i 0 + a.getD (i + (gap + 1)) 0 := by
            rw [← hpi]
            exact add_le_add_left hq' _
          linarith
        · omega
    · rw [if_neg (by rw [heq]; exact lt_irrefl v), if_pos heq]
      simp only [true_iff]
      exact ⟨i, i + (gap + 1), le_refl i, by omega, le_refl _, heq⟩
    · rw [if_neg (not_lt.mpr (le_of_lt hgt)), if_neg (ne_of_gt hgt)]
      have hrec := ih i (by omega)
      rw [hrec]
      constructor
      · rintro ⟨p, q, hip, hpq, hq, hv⟩
        exact ⟨p, q, hip, hpq, by omega, hv⟩
      · rintro ⟨p, q, hip, hpq, hq, hv⟩
        refine ⟨p, q, hip, hpq, ?_, hv⟩
        rcases Nat.eq_or_lt_of_le hq with hqi | hqi
        · exfalso
          have hp' : a.getD i 0 ≤ a.getD p 0 :=
            sorted_getD_mono hs hip (by omega)
          have : a.getD i 0 + a.getD (i + (gap + 1)) 0 ≤ a.getD p 0 + a.getD q 0 := by
            rw [hqi]
            exact add_le_add_right hp' _
          linarith
        · omega

lemma twoPtrCheck_spec {a : List Block} (hs : a.Sorted (· ≤ ·)) (hne : a ≠ []) (v : Block) :
    twoPtrCheck a v = true ↔
      ∃ p q, p < q ∧ q < a.length ∧ a.getD p 0 + a.getD q 0 = v := by
  match a, hne with
  | b :: bs, _ =>
    rw [twoPtrCheck]
    have hlen : (b :: bs).length - 1 < (b :: bs).length := by simp
    rw [twoPtrGo_spec hs v ((b :: bs).length - 1) 0 (by simp)]
    constructor
    · rintro ⟨p, q, -, hpq, hq, hv⟩
      exact ⟨p, q, hpq, by simp at hq ⊢; omega, hv⟩
    · rintro ⟨p, q, hpq, hq, hv⟩
      exact ⟨p, q, Nat.zero_le p, hpq, by simp at hq ⊢; omega, hv⟩

lemma twoPtrCheck_iff_hasPairSum {a w : List Block} (hs : a.Sorted (· ≤ ·))
    (hperm : a.Perm w) (hne : w ≠ []) (v : Block) :
    twoPtrCheck a v = true ↔ HasPairSum w v := by
  have hane : a ≠ [] := fun h => hne (List.Perm.eq_nil ((h ▸ hperm).symm))
  rw [twoPtrCheck_spec hs hane v]
  rw [← hasPairSum_iff_lt, ← mem_pairSums_iff_hasPairSum, ← mem_pairSums_iff_hasPairSum,
    pairSums_perm hperm]

/-! ### Correctness of the binary search -/

lemma binSearchGo_spec {a : List Block} (hs : a.Sorted (· ≤ ·)) (v : Block) :
    ∀ fuel left right, left ≤ right → right ≤ a.length → right - left ≤ fuel →
      (∀ k, k < left → a.getD k 0 < v) →
      (∀ k, right ≤ k → k < a.length → v < a.getD k 0) →
      ((binSearchGo a v fuel left right).1 = true →
        (binSearchGo a v fuel left right).2 < a.length ∧
          a.getD (binSearchGo a v fuel left right).2 0 = v) ∧
      ((binSearchGo a v fuel left right).1 = false →
        (binSearchGo a v fuel left right).2 ≤ a.length ∧
          (∀ k, k < (binSearchGo a v fuel left right).2 → a.getD k 0 < v) ∧
          (∀ k, (binSearchGo a v fuel left right).2 ≤ k → k < a.length → v < a.getD k 0)) := by
  intro fuel
  induction fuel with
  | zero =>
    intro left right hlr hrlen hfuel hlo hhi
    have : left = right := by omega
    subst this
    simp only [binSearchGo]
    exact ⟨fun h => absurd h (by simp), fun _ => ⟨hrlen, hlo, hhi⟩⟩
  | succ fuel ih =>
    intro left right hlr hrlen hfuel hlo hhi
    rw [binSearchGo]
    by_cases hrl : right ≤ left
    · have : left = right := by omega
      subst this
      rw [if_pos hrl]
      exact ⟨fun h => absurd h (by simp), fun _ => ⟨hrlen, hlo, hhi⟩⟩
    · rw [if_neg hrl]
      have hlt : left < right := by omega
      set mid := left + (right - left) / 2 with hmid
      have hmid_lt : mid < right := by omega
      have hmid_len : mid < a.length := by omega
      by_cases hx1 : a.getD mid 0 < v
      · rw [if_pos hx1]
        refine ih (mid + 1) right (by omega) hrlen (by omega) ?_ hhi
        intro k hk
        exact lt_of_le_of_lt (sorted_getD_mono hs (by omega) hmid_len) hx1
      · rw [if_neg hx1]
        by_cases hx2 : v < a.getD mid 0
        · rw [if_pos hx2]
          refine ih left mid (by omega) (by omega) (by omega) hlo ?_
          intro k hk hklen
          exact lt_of_lt_of_le hx2 (sorted_getD_mono hs hk hklen)
        · rw [if_neg hx2]
          have hxv : a.getD mid 0 = v := le_antisymm (not_lt.mp hx2) (not_lt.mp hx1)
          exact ⟨fun _ => ⟨hmid_len, hxv⟩, fun h => absurd h (by simp)⟩

lemma binarySearch_found {a : List Block} (hs : a.Sorted (· ≤ ·)) {v : Block}
    (hv : v ∈ a) :
    (binarySearch a v).1 = true ∧ (binarySearch a v).2 < a.length ∧
      a.getD (binarySearch a v).2 0 = v := by
  have hspec := binSearchGo_spec hs v a.length 0 a.length (Nat.zero_le _) (le_refl _)
    (by omega) (by omega) (by omega)
  rw [binarySearch]
  rcases hb : (binSearchGo a v a.length 0 a.length).1 with _ | _
  · exfalso
    obtain ⟨-, hlo, hhi⟩ := hspec.2 hb
    rcases mem_iff_getD.mp hv with ⟨k, hk, hgk⟩
    rcases lt_or_ge k (binSearchGo a v a.length 0 a.length).2 with h | h
    · exact absurd hgk (ne_of_lt (hlo k h))
    · exact absurd hgk.symm (ne_of_lt (hhi k h hk))
  · obtain ⟨h1, h2⟩ := hspec.1 hb
    exact ⟨rfl, h1, h2⟩

lemma binarySearch_bounds {a : List Block} (hs : a.Sorted (· ≤ ·)) (v : Block) :
    (binarySearch a v).2 ≤ a.length ∧
      (∀ k, k < (binarySearch a v).2 → k < a.length → a.getD k 0 ≤ v) ∧
      (∀ k, (binarySearch a v).2 ≤ k → k < a.length → v ≤ a.getD k 0) := by
  have hspec := binSearchGo_spec hs v a.length 0 a.length (Nat.zero_le _) (le_refl _)
    (by omega) (by omega) (by omega)
  rw [binarySearch]
  rcases hb : (binSearchGo a v a.length 0 a.length).1 with _ | _
  · obtain ⟨hle, hlo, hhi⟩ := hspec.2 hb
    exact ⟨hle, fun k hk _ => le_of_lt (hlo k hk),
      fun k hk hklen => le_of_lt (hhi k hk hklen)⟩
  · obtain ⟨hlen, hval⟩ := hspec.1 hb
    refine ⟨le_of_lt hlen, ?_, ?_⟩
    · intro k hk hklen
      rw [← hval]
      exact sorted_getD_mono hs (le_of_lt hk) hlen
    · intro k hk hklen
      rw [← hval]
      exact sorted_getD_mono hs hk hklen

/-! ### Sorted lists under `eraseIdx` and `insertIdx` -/

lemma insertIdx_eq_take_cons_drop (x : Block) :
    ∀ (i : Nat) (l : List Block), i ≤ l.length →
      l.insertIdx i x = l.take i ++ x :: l.drop i := by
  intro i
  induction i with
  | zero => intro l _; simp
  | succ i ih =>
    intro l hl
    match l with
    | [] => simp at hl
    | b :: bs =>
      rw [List.insertIdx_succ_cons, ih bs (by simpa using hl)]
      simp

lemma sorted_insertIdx {a : List Block} (hs : a.Sorted (· ≤ ·)) {x : Block} {i : Nat}
    (hi : i ≤ a.length)
    (hlo : ∀ k, k < i → k < a.length → a.getD k 0 ≤ x)
    (hhi : ∀ k, i ≤ k → k < a.length → x ≤ a.getD k 0) :
    (a.insertIdx i x).Sorted (· ≤ ·) := by
  rw [insertIdx_eq_take_cons_drop x i a hi]
  rw [List.Sorted, List.pairwise_append]
  refine ⟨(hs.sublist (List.take_sublist i a)), ?_, ?_⟩
  · rw [List.pairwise_cons]
    refine ⟨?_, hs.sublist (List.drop_sublist i a)⟩
    intro b hb
    rcases mem_iff_getD.mp hb with ⟨k, hk, hbk⟩
    rw [← hbk]
    have : (a.drop i).getD k 0 = a.getD (i + k) 0 := by
      have hik : i + k < a.length := by
        rw [List.length_drop] at hk; omega
      rw [getD_lt_length hk, getD_lt_length hik]
      simp [List.getElem_drop]
    rw [this]
    exact hhi (i + k) (by omega) (by rw [List.length_drop] at hk; omega)
  · intro u hu w hw
    rcases mem_iff_getD.mp hu with ⟨k, hk, huk⟩
    have hklen : k < a.length := by
      have := List.length_take i a
      rw [List.length_take] at hk
      omega
    have hki : k < i := by rw [List.length_take] at hk; omega
    have htk : (a.take i).getD k 0 = a.getD k 0 := by
      rw [getD_lt_length hk, getD_lt_length hklen]
      simp [List.getElem_take]
    have hux : u ≤ x := by
      rw [← huk, htk]
      exact hlo k hki hklen
    rcases List.mem_cons.mp hw with hwx | hwd
    · rw [hwx]; exact hux
    · rcases mem_iff_getD.mp hwd with ⟨k', hk', hwk'⟩
      have hik' : i + k' < a.length := by
        rw [List.length_drop] at hk'; omega
      have hdk : (a.drop i).getD k' 0 = a.getD (i + k') 0 := by
        rw [getD_lt_length hk', getD_lt_length hik']
        simp [List.getElem_drop]
      refine le_trans hux ?_
      rw [← hwk', hdk]
      exact hhi (i + k') (by omega) hik'

lemma eraseIdx_eq_take_drop (l : List Block) (i : Nat) :
    l.eraseIdx i = l.take i ++ l.drop (i + 1) :=
  List.eraseIdx_eq_take_drop_succ l i

lemma perm_cons_eraseIdx {l : List Block} {i : Nat} (hi : i < l.length) :
    l.Perm (l.getD i 0 :: l.eraseIdx i) := by
  conv_lhs => rw [← List.take_append_drop i l]
  have hdrop : l.drop i = l.getD i 0 :: l.drop (i + 1) := by
    rw [getD_lt_length hi]
    rw [List.drop_eq_getElem_cons hi]
    simp
  rw [hdrop, eraseIdx_eq_take_drop]
  exact List.perm_middle

/-! ### The multiset update of `HashMine::try_extend_one` -/

lemma foldl_swapSums (old_block new_block : Block) :
    ∀ (l : List Block) (s : Multiset Block),
      ((l.map fun b => old_block + b : List Block) : Multiset Block) ≤ s →
      l.foldl (fun t b => (new_block + b) ::ₘ t.erase (old_block + b)) s
        = ((l.map fun b => new_block + b : List Block) : Multiset Block)
          + (s - ((l.map fun b => old_block + b : List Block) : Multiset Block)) := by
  intro l
  induction l with
  | nil => intro s _; simp
  | cons b bs ih =>
    intro s hle
    have hco : (((b :: bs).map fun c => old_block + c : List Block) : Multiset Block)
        = (old_block + b) ::ₘ ((bs.map fun c => old_block + c : List Block) : Multiset Block) := by
      simp
    rw [hco] at hle
    have hbs_le : ((bs.map fun c => old_block + c : List Block) : Multiset Block)
        ≤ s.erase (old_block + b) := by
      have := Multiset.erase_le_erase (old_block + b) hle
      rwa [Multiset.erase_cons_head] at this
    have hstep : (b :: bs).foldl (fun t c => (new_block + c) ::ₘ t.erase (old_block + c)) s
        = bs.foldl (fun t c => (new_block + c) ::ₘ t.erase (old_block + c))
            ((new_block + b) ::ₘ s.erase (old_block + b)) := rfl
    rw [hstep, ih _ (le_trans hbs_le (Multiset.le_cons_self _ _))]
    have hsub : (new_block + b) ::ₘ s.erase (old_block + b)
          - ((bs.map fun c => old_block + c : List Block) : Multiset Block)
        = (new_block + b) ::ₘ
            (s.erase (old_block + b)
              - ((bs.map fun c => old_block + c : List Block) : Multiset Block)) :=
      Multiset.cons_sub_of_le _ hbs_le
    rw [hsub, hco, Multiset.sub_cons]
    have hconew : (((b :: bs).map fun c => new_block + c : List Block) : Multiset Block)
        = (new_block + b) ::ₘ ((bs.map fun c => new_block + c : List Block) : Multiset Block) := by
      simp
    rw [hconew]
    simp only [← Multiset.singleton_add]
    rw [add_left_comm, add_assoc]

lemma pairSums_slide (old_block new_block : Block) (rest : List Block) :
    rest.foldl (fun t b => (new_block + b) ::ₘ t.erase (old_block + b))
        (pairSums (old_block :: rest))
      = pairSums (rest ++ [new_block]) := by
  have hle : ((rest.map fun b => old_block + b : List Block) : Multiset Block)
      ≤ pairSums (old_block :: rest) := by
    rw [pairSums_cons]
    exact Multiset.le_add_right _ _
  rw [foldl_swapSums old_block new_block rest _ hle, pairSums_cons,
    add_tsub_cancel_left, pairSums_append_singleton]
  have hmap : (rest.map fun b => b + new_block) = rest.map fun b => new_block + b := by
    apply List.map_congr_left
    intro b _
    exact add_comm b new_block
  rw [hmap, add_comm]

/-! ### Step characterization: `HashMine` -/

lemma hashStep_err {m : HashMine} {v : Block} (hInv : HashInv m)
    (hno : ¬ HasPairSum m.validation_blocks v) :
    m.tryExtendOne v = some (m, .error (.invalidBlock v (m.total_blocks + 1))) := by
  rw [HashMine.tryExtendOne, if_pos]
  rw [hInv.1, mem_pairSums_iff_hasPairSum]
  exact hno

lemma hashStep_ok {m : HashMine} {v : Block} (hInv : HashInv m)
    (hyes : HasPairSum m.validation_blocks v) :
    m.tryExtendOne v = some
      ({ validation_blocks := m.validation_blocks.drop 1 ++ [v]
         block_pair_sums := pairSums (m.validation_blocks.drop 1 ++ [v])
         total_blocks := m.total_blocks + 1 }, .ok ()) := by
  obtain ⟨vb, ps, tb⟩ := m
  obtain ⟨hps, hne⟩ := hInv
  simp only at hps hne hyes ⊢
  match vb, hne with
  | old_block :: rest, _ =>
    rw [HashMine.tryExtendOne, if_neg]
    · show some
        (({ validation_blocks := rest ++ [v]
            block_pair_sums :=
              rest.foldl (fun s b => (v + b) ::ₘ s.erase (old_block + b)) ps
            total_blocks := tb + 1 } : HashMine), Except.ok ()) = _
      rw [hps, pairSums_slide]
      rfl
    · show ¬ v ∉ ps
      rw [hps, mem_pairSums_iff_hasPairSum]
      exact not_not_intro hyes

lemma hashStep_ok_inv (w : List Block) (v : Block) (n : Nat) :
    HashInv { validation_blocks := w.drop 1 ++ [v]
              block_pair_sums := pairSums (w.drop 1 ++ [v])
              total_blocks := n } :=
  ⟨rfl, by simp⟩

/-! ### Step characterization: `TwoPtrMine` -/

lemma twoStep_err {m : TwoPtrMine} {v : Block} (hInv : TwoInv m)
    (hno : ¬ HasPairSum m.validation_blocks v) :
    m.tryExtendOne v = some (m, .error (.invalidBlock v (m.total_blocks + 1))) := by
  rw [TwoPtrMine.tryExtendOne, if_pos]
  rw [Bool.eq_false_iff]
  intro hchk
  exact hno ((twoPtrCheck_iff_hasPairSum hInv.1 hInv.2.1 hInv.2.2 v).mp hchk)

lemma twoStep_ok {m : TwoPtrMine} {v : Block} (hInv : TwoInv m)
    (hyes : HasPairSum m.validation_blocks v) :
    ∃ ord, m.tryExtendOne v = some
        ({ validation_blocks := m.validation_blocks.drop 1 ++ [v]
           ordered_validation_blocks := ord
           total_blocks := m.total_blocks + 1 }, .ok ()) ∧
      ord.Sorted (· ≤ ·) ∧ ord.Perm (m.validation_blocks.drop 1 ++ [v]) := by
  obtain ⟨vb, a, tb⟩ := m
  obtain ⟨hsort, hperm, hne⟩ := hInv
  simp only at hsort hperm hne hyes ⊢
  match vb, hne with
  | old_block :: rest, _ =>
    have hold_mem : old_block ∈ a := by
      rw [hperm.mem_iff]
      exact List.mem_cons_self old_block rest
    obtain ⟨hfound, hidx_lt, hidx_val⟩ := binarySearch_found hsort hold_mem
    have har_sorted : (a.eraseIdx (binarySearch a old_block).2).Sorted (· ≤ ·) :=
      hsort.sublist (List.eraseIdx_sublist a (binarySearch a old_block).2)
    have har_perm : (a.eraseIdx (binarySearch a old_block).2).Perm rest := by
      have h1 : a.Perm (old_block :: a.eraseIdx (binarySearch a old_block).2) := by
        have := perm_cons_eraseIdx hidx_lt
        rwa [hidx_val] at this
      exact (h1.symm.trans hperm).cons_inv
    obtain ⟨hins_le, hins_lo, hins_hi⟩ := binarySearch_bounds har_sorted v
    refine ⟨(a.eraseIdx (binarySearch a old_block).2).insertIdx
        (binarySearch (a.eraseIdx (binarySearch a old_block).2) v).2 v, ?_, ?_, ?_⟩
    · rw [TwoPtrMine.tryExtendOne, if_neg]
      · show (if (binarySearch a old_block).2 < a.length then _ else none) = _
        rw [if_pos hidx_lt]
        rfl
      · show ¬ twoPtrCheck a v = false
        rw [Bool.not_eq_false]
        exact (twoPtrCheck_iff_hasPairSum hsort hperm (List.cons_ne_nil old_block rest) v).mpr
          hyes
    · exact sorted_insertIdx har_sorted hins_le hins_lo hins_hi
    · refine (List.perm_insertIdx v _ hins_le).trans ?_
      refine List.Perm.trans ?_ (List.perm_append_singleton v rest).symm
      exact har_perm.cons v

/-! ### Construction establishes the invariants -/

lemma hash_new {blocks : List Block} (hne : blocks ≠ []) :
    HashMine.new blocks
      = some { validation_blocks := blocks
               block_pair_sums := pairSums blocks
               total_blocks := blocks.length } := by
  rw [HashMine.new, if_neg (by simpa using hne)]

lemma hash_new_inv {blocks : List Block} (hne : blocks ≠ []) :
    HashInv { validation_blocks := blocks
              block_pair_sums := pairSums blocks
              total_blocks := blocks.length } :=
  ⟨rfl, hne⟩

lemma two_new_inv {blocks : List Block} (hne : blocks ≠ []) :
    TwoInv (TwoPtrMine.new blocks) :=
  ⟨List.sorted_insertionSort (· ≤ ·) blocks, List.perm_insertionSort (· ≤ ·) blocks, hne⟩

/-! ### Run lemmas -/

lemma acceptedOf_cons_ok (b : Block) (bs : List Block) (rs : List (Except MineError Unit)) :
    acceptedOf (b :: bs) (.ok () :: rs) = b :: acceptedOf bs rs := rfl

lemma acceptedOf_cons_err (b : Block) (bs : List Block) (e : MineError)
    (rs : List (Except MineError Unit)) :
    acceptedOf (b :: bs) (.error e :: rs) = acceptedOf bs rs := rfl

lemma length_drop_append (l acc : List Block) :
    ((l ++ acc).drop acc.length).length = l.length := by
  rw [List.length_drop, List.length_append]
  omega

lemma drop_slide (c b : Block) (w' tail : List Block) :
    ((c :: w') ++ b :: tail).drop (tail.length + 1) = ((w' ++ [b]) ++ tail).drop tail.length := by
  rw [List.cons_append, List.drop_succ_cons]
  congr 1
  rw [List.append_assoc]
  rfl

lemma hash_run : ∀ (bs : List Block) (m : HashMine), HashInv m →
    ∃ m' rs, feedAll HashMine.tryExtendOne m bs = some (m', rs) ∧ HashInv m' ∧
      rs.length = bs.length ∧
      m'.validation_blocks
        = (m.validation_blocks ++ acceptedOf bs rs).drop (acceptedOf bs rs).length ∧
      m'.total_blocks = m.total_blocks + (acceptedOf bs rs).length := by
  intro bs
  induction bs with
  | nil =>
    intro m hInv
    exact ⟨m, [], rfl, hInv, rfl, by simp [acceptedOf], by simp [acceptedOf]⟩
  | cons b bs ih =>
    intro m hInv
    by_cases hdec : HasPairSum m.validation_blocks b
    · have hstep := hashStep_ok hInv hdec
      obtain ⟨m', rs, hfeed, hInv', hlen, hwin, htot⟩ :=
        ih { validation_blocks := m.validation_blocks.drop 1 ++ [b]
             block_pair_sums := pairSums (m.validation_blocks.drop 1 ++ [b])
             total_blocks := m.total_blocks + 1 }
          (hashStep_ok_inv m.validation_blocks b (m.total_blocks + 1))
      refine ⟨m', Except.ok () :: rs, ?_, hInv', by simpa using hlen, ?_, ?_⟩
      · simp only [feedAll, hstep, hfeed]
      · rw [acceptedOf_cons_ok, hwin]
        match hvb : m.validation_blocks, hInv.2 with
        | c :: w', _ =>
          simp only [List.length_cons, List.drop_succ_cons, List.drop_one, List.tail_cons]
          exact (drop_slide c b w' (acceptedOf bs rs)).symm
      · rw [acceptedOf_cons_ok, htot]
        simp only [List.length_cons]
        omega
    · have hstep := hashStep_err hInv hdec
      obtain ⟨m', rs, hfeed, hInv', hlen, hwin, htot⟩ := ih m hInv
      refine ⟨m', Except.error (.invalidBlock b (m.total_blocks + 1)) :: rs, ?_, hInv',
        by simpa using hlen, ?_, ?_⟩
      · simp only [feedAll, hstep, hfeed]
      · rw [acceptedOf_cons_err]
        exact hwin
      · rw [acceptedOf_cons_err]
        exact htot

lemma two_run : ∀ (bs : List Block) (m : TwoPtrMine), TwoInv m →
    ∃ m' rs, feedAll TwoPtrMine.tryExtendOne m bs = some (m', rs) ∧ TwoInv m' ∧
      rs.length = bs.length ∧
      m'.validation_blocks
        = (m.validation_blocks ++ acceptedOf bs rs).drop (acceptedOf bs rs).length ∧
      m'.total_blocks = m.total_blocks + (acceptedOf bs rs).length := by
  intro bs
  induction bs with
  | nil =>
    intro m hInv
    exact ⟨m, [], rfl, hInv, rfl, by simp [acceptedOf], by simp [acceptedOf]⟩
  | cons b bs ih =>
    intro m hInv
    by_cases hdec : HasPairSum m.validation_blocks b
    · obtain ⟨ord, hstep, hsort, hperm⟩ := twoStep_ok hInv hdec
      obtain ⟨m', rs, hfeed, hInv', hlen, hwin, htot⟩ :=
        ih { validation_blocks := m.validation_blocks.drop 1 ++ [b]
             ordered_validation_blocks := ord
             total_blocks := m.total_blocks + 1 }
          ⟨hsort, hperm, by simp⟩
      refine ⟨m', Except.ok () :: rs, ?_, hInv', by simpa using hlen, ?_, ?_⟩
      · simp only [feedAll, hstep, hfeed]
      · rw [acceptedOf_cons_ok, hwin]
        match hvb : m.validation_blocks, hInv.2.2 with
        | c :: w', _ =>
          simp only [List.length_cons, List.drop_succ_cons, List.drop_one, List.tail_cons]
          exact (drop_slide c b w' (acceptedOf bs rs)).symm
      · rw [acceptedOf_cons_ok, htot]
        simp only [List.length_cons]
        omega
    · have hstep := twoStep_err hInv hdec
      obtain ⟨m', rs, hfeed, hInv', hlen, hwin, htot⟩ := ih m hInv
      refine ⟨m', Except.error (.invalidBlock b (m.total_blocks + 1)) :: rs, ?_, hInv',
        by simpa using hlen, ?_, ?_⟩
      · simp only [feedAll, hstep, hfeed]
      · rw [acceptedOf_cons_err]
        exact hwin
      · rw [acceptedOf_cons_err]
        exact htot

lemma pair_run : ∀ (bs : List Block) (h : HashMine) (t : TwoPtrMine),
    HashInv h → TwoInv t →
    h.validation_blocks = t.validation_blocks → h.total_blocks = t.total_blocks →
    ∃ h' t' rs, feedAll HashMine.tryExtendOne h bs = some (h', rs) ∧
      feedAll TwoPtrMine.tryExtendOne t bs = some (t', rs) := by
  intro bs
  induction bs with
  | nil =>
    intro h t _ _ _ _
    exact ⟨h, t, [], rfl, rfl⟩
  | cons b bs ih =>
    intro h t hInvH hInvT hw hn
    by_cases hdec : HasPairSum h.validation_blocks b
    · have hstepH := hashStep_ok hInvH hdec
      obtain ⟨ord, hstepT, hsort, hperm⟩ := twoStep_ok hInvT (hw ▸ hdec)
      obtain ⟨h', t', rs, hfeedH, hfeedT⟩ :=
        ih { validation_blocks := h.validation_blocks.drop 1 ++ [b]
             block_pair_sums := pairSums (h.validation_blocks.drop 1 ++ [b])
             total_blocks := h.total_blocks + 1 }
          { validation_blocks := t.validation_blocks.drop 1 ++ [b]
            ordered_validation_blocks := ord
            total_blocks := t.total_blocks + 1 }
          (hashStep_ok_inv h.validation_blocks b (h.total_blocks + 1))
          ⟨hsort, hperm, by simp⟩ (by rw [hw]) (by rw [hn])
      refine ⟨h', t', Except.ok () :: rs, ?_, ?_⟩
      · simp only [feedAll, hstepH, hfeedH]
      · simp only [feedAll, hstepT, hfeedT]
    · have hstepH := hashStep_err hInvH hdec
      have hstepT := twoStep_err hInvT (hw ▸ hdec)
      obtain ⟨h', t', rs, hfeedH, hfeedT⟩ := ih h t hInvH hInvT hw hn
      refine ⟨h', t', Except.error (.invalidBlock b (h.total_blocks + 1)) :: rs, ?_, ?_⟩
      · simp only [feedAll, hstepH, hfeedH]
      · rw [hn]
        simp only [feedAll, hstepT, hfeedT]

/-! ### `pairSums` as the multiset of sums over unordered position pairs -/

lemma pairSums_eq_powersetCard (l : List Block) :
    pairSums l = (Multiset.powersetCard 2 (l : Multiset Block)).map Multiset.sum := by
  induction l with
  | nil => simp [pairSums]
  | cons b bs ih =>
    rw [pairSums_cons, ih]
    have hco : ((b :: bs : List Block) : Multiset Block) = b ::ₘ (bs : Multiset Block) := rfl
    rw [hco]
    rw [show (2 : ℕ) = 1 + 1 from rfl, Multiset.powersetCard_cons, Multiset.map_add,
      Multiset.powersetCard_one, Multiset.map_map, Multiset.map_map]
    have hmap : Multiset.map ((Multiset.sum ∘ Multiset.cons b) ∘ singleton)
          (bs : Multiset Block)
        = ((bs.map fun c => b + c : List Block) : Multiset Block) := by
      have hfun : ((Multiset.sum ∘ Multiset.cons b) ∘ singleton : Block → Block)
          = fun c => b + c := by
        funext c
        simp
      rw [hfun]
      rfl
    rw [hmap, add_comm]

/-! ### Lemmas for `tryExtend` -/

lemma tryExtend_nil {σ : Type} (step : StepFn σ) (s : σ) :
    tryExtend step s [] = some (s, .ok ()) := rfl

lemma extendAllOk_tryExtend {σ : Type} (step : StepFn σ) :
    ∀ (bs : List Block) (s s' : σ), extendAllOk step s bs = some s' →
      tryExtend step s bs = some (s', .ok ()) := by
  intro bs
  induction bs with
  | nil =>
    intro s s' h
    rw [extendAllOk] at h
    injection h with h
    rw [h]
    rfl
  | cons b bs ih =>
    intro s s' h
    rw [extendAllOk] at h
    rw [tryExtend]
    match hstep : step s b with
    | none => rw [hstep] at h; exact absurd h (by simp)
    | some (s1, .error e) => rw [hstep] at h; exact absurd h (by simp)
    | some (s1, .ok ()) =>
      rw [hstep] at h
      exact ih s1 s' h

lemma tryExtend_extendAllOk {σ : Type} (step : StepFn σ) :
    ∀ (bs : List Block) (s s' : σ), tryExtend step s bs = some (s', .ok ()) →
      extendAllOk step s bs = some s' := by
  intro bs
  induction bs with
  | nil =>
    intro s s' h
    rw [tryExtend] at h
    simp only [Option.some.injEq, Prod.mk.injEq] at h
    rw [extendAllOk, h.1]
  | cons b bs ih =>
    intro s s' h
    rw [tryExtend] at h
    rw [extendAllOk]
    match hstep : step s b with
    | none => rw [hstep] at h; exact absurd h (by simp)
    | some (s1, .error e) =>
      rw [hstep] at h
      simp only [Option.some.injEq, Prod.mk.injEq] at h
      exact absurd h.2 (by simp)
    | some (s1, .ok ()) =>
      rw [hstep] at h
      exact ih s1 s' h

lemma tryExtend_first_error {σ : Type} (step : StepFn σ) :
    ∀ (bs : List Block) (s s' : σ) (e : MineError),
      tryExtend step s bs = some (s', .error e) →
      ∃ k sk, k < bs.length ∧ extendAllOk step s (bs.take k) = some sk ∧
        step sk (bs.getD k 0) = some (s', .error e) := by
  intro bs
  induction bs with
  | nil =>
    intro s s' e h
    rw [tryExtend] at h
    simp only [Option.some.injEq, Prod.mk.injEq] at h
    exact absurd h.2 (by simp)
  | cons b bs ih =>
    intro s s' e h
    rw [tryExtend] at h
    match hstep : step s b with
    | none => rw [hstep] at h; exact absurd h (by simp)
    | some (s1, .error e1) =>
      rw [hstep] at h
      simp only [Option.some.injEq, Prod.mk.injEq, Except.error.injEq] at h
      refine ⟨0, s, by simp, rfl, ?_⟩
      rw [List.getD_cons_zero, hstep, h.1, h.2]
    | some (s1, .ok ()) =>
      rw [hstep] at h
      obtain ⟨k, sk, hk, hall, herr⟩ := ih s1 s' e h
      refine ⟨k + 1, sk, by simpa using hk, ?_, ?_⟩
      · rw [List.take_succ_cons, extendAllOk, hstep]
        exact hall
      · rw [List.getD_cons_succ]
        exact herr

/-! ### Lemmas for `tryNew` and `tryCreateAndExtend` -/

lemma tryNew_exact {σ : Type} (mk : List Block → Option σ) {w : Nat} {blocks : List Block}
    (h : blocks.length = w) : tryNew w mk blocks = .ok (mk blocks) := by
  rw [tryNew, vecTryIntoArray, if_pos h]

lemma tryNew_ne {σ : Type} (mk : List Block → Option σ) {w : Nat} {blocks : List Block}
    (h : blocks.length ≠ w) :
    tryNew w mk blocks = .error .invalidInitializationBlocksSize := by
  rw [tryNew, vecTryIntoArray, if_neg h]

lemma tryCreateAndExtend_short {σ : Type} (mk : List Block → Option σ) (step : StepFn σ)
    {w : Nat} {blocks : List Block} (h : blocks.length < w) :
    tryCreateAndExtend w mk step blocks
      = some (.error .invalidInitializationBlocksSize) := by
  rw [tryCreateAndExtend]
  have hlen : (blocks.take w).length ≠ w := by
    rw [List.length_take]
    omega
  rw [take_with_remainder]
  rw [show vecTryIntoArray w (blocks.take w, blocks.drop w).1 = none from ?_]
  rw [vecTryIntoArray, if_neg hlen]

lemma tryCreateAndExtend_enough {σ : Type} (mk : List Block → Option σ) (step : StepFn σ)
    {w : Nat} {blocks : List Block} (h : w ≤ blocks.length) :
    tryCreateAndExtend w mk step blocks
      = match mk (blocks.take w) with
        | none => none
        | some m => (tryExtend step m (blocks.drop w)).map Prod.snd := by
  rw [tryCreateAndExtend]
  have hlen : (blocks.take w).length = w := by
    rw [List.length_take]
    omega
  rw [take_with_remainder]
  rw [show vecTryIntoArray w (blocks.take w, blocks.drop w).1 = some (blocks.take w) from ?_]
  rw [vecTryIntoArray, if_pos hlen]

/-! ## Claim theorems -/

/-- C1: for every window size, every initial window and every finite stream,
the Pair-Sum Multiset Engine and the Two-Pointer Sorted Engine produce the
same sequence of accept/reject results, and a rejected value yields the same
`InvalidBlock` payload (value and position) in both, since the shared result
list `rs` carries the full error values. -/
theorem c1_engines_equivalent (initial bs : List Block) (hne : initial ≠ []) :
    ∃ h0 h' t' rs, HashMine.new initial = some h0 ∧
      feedAll HashMine.tryExtendOne h0 bs = some (h', rs) ∧
      feedAll TwoPtrMine.tryExtendOne (TwoPtrMine.new initial) bs = some (t', rs) := by
  obtain ⟨h', t', rs, hH, hT⟩ := pair_run bs
    { validation_blocks := initial
      block_pair_sums := pairSums initial
      total_blocks := initial.length }
    (TwoPtrMine.new initial)
    (hash_new_inv hne) (two_new_inv hne) rfl rfl
  exact ⟨_, h', t', rs, hash_new hne, hH, hT⟩

theorem c1_witness :
    ∃ h0 h' t' rs, HashMine.new [4, 4, 2, 2] = some h0 ∧
      feedAll HashMine.tryExtendOne h0 [8, 4, 2] = some (h', rs) ∧
      feedAll TwoPtrMine.tryExtendOne (TwoPtrMine.new [4, 4, 2, 2]) [8, 4, 2] = some (t', rs) :=
  c1_engines_equivalent [4, 4, 2, 2] [8, 4, 2] (by decide)

/-- C2: on a well-formed state, `try_extend_one` accepts exactly when the
value is a sum of two distinct window positions; on acceptance it evicts the
oldest element, appends the value, rebuilds the support index for the new
window and bumps the counter; on rejection it returns
`InvalidBlock(value, counter + 1)` with the state unchanged. Both engines. -/
theorem c2_step_characterization :
    (∀ (m : HashMine) (v : Block), HashInv m →
      (HasPairSum m.validation_blocks v →
        m.tryExtendOne v = some
          ({ validation_blocks := m.validation_blocks.drop 1 ++ [v]
             block_pair_sums := pairSums (m.validation_blocks.drop 1 ++ [v])
             total_blocks := m.total_blocks + 1 }, .ok ())) ∧
      (¬ HasPairSum m.validation_blocks v →
        m.tryExtendOne v = some (m, .error (.invalidBlock v (m.total_blocks + 1))))) ∧
    (∀ (m : TwoPtrMine) (v : Block), TwoInv m →
      (HasPairSum m.validation_blocks v →
        ∃ ord, m.tryExtendOne v = some
            ({ validation_blocks := m.validation_blocks.drop 1 ++ [v]
               ordered_validation_blocks := ord
               total_blocks := m.total_blocks + 1 }, .ok ()) ∧
          ord.Sorted (· ≤ ·) ∧ ord.Perm (m.validation_blocks.drop 1 ++ [v])) ∧
      (¬ HasPairSum m.validation_blocks v →
        m.tryExtendOne v = some (m, .error (.invalidBlock v (m.total_blocks + 1))))) :=
  ⟨fun _ _ hInv => ⟨fun hyes => hashStep_ok hInv hyes, fun hno => hashStep_err hInv hno⟩,
   fun _ _ hInv => ⟨fun hyes => twoStep_ok hInv hyes, fun hno => twoStep_err hInv hno⟩⟩

theorem c2_witness :
    HashMine.tryExtendOne
        { validation_blocks := [4, 4, 2, 2]
          block_pair_sums := pairSums [4, 4, 2, 2]
          total_blocks := 4 } 8
      = some
        ({ validation_blocks := ([4, 4, 2, 2] : List Block).drop 1 ++ [8]
           block_pair_sums := pairSums (([4, 4, 2, 2] : List Block).drop 1 ++ [8])
           total_blocks := 4 + 1 }, .ok ()) :=
  (c2_step_characterization.1
    { validation_blocks := [4, 4, 2, 2]
      block_pair_sums := pairSums [4, 4, 2, 2]
      total_blocks := 4 } 8 ⟨rfl, by decide⟩).1 (by decide)

/-- C3: a failing `try_extend_one` call leaves the engine state (window,
support index and counter) exactly as it was, for both engines and for any
state, well-formed or not: the error branch returns before any mutation. -/
theorem c3_no_mutation_on_failure :
    (∀ (m m' : HashMine) (v : Block) (e : MineError),
      m.tryExtendOne v = some (m', .error e) → m' = m) ∧
    (∀ (m m' : TwoPtrMine) (v : Block) (e : MineError),
      m.tryExtendOne v = some (m', .error e) → m' = m) := by
  constructor
  · intro m m' v e h
    rw [HashMine.tryExtendOne] at h
    by_cases hmem : v ∉ m.block_pair_sums
    · rw [if_pos hmem] at h
      simp only [Option.some.injEq, Prod.mk.injEq] at h
      exact h.1.symm
    · rw [if_neg hmem] at h
      rcases hvb : m.validation_blocks with _ | ⟨old_block, rest⟩ <;> rw [hvb] at h
      · exact absurd h (by simp)
      · simp at h
  · intro m m' v e h
    rw [TwoPtrMine.tryExtendOne] at h
    split at h
    · simp only [Option.some.injEq, Prod.mk.injEq] at h
      exact h.1.symm
    · split at h
      · exact absurd h (by simp)
      · simp at h

theorem c3_witness :
    ({ validation_blocks := [2, 2, 8, 4]
       block_pair_sums := pairSums [2, 2, 8, 4]
       total_blocks := 6 } : HashMine)
      = { validation_blocks := [2, 2, 8, 4]
          block_pair_sums := pairSums [2, 2, 8, 4]
          total_blocks := 6 } :=
  c3_no_mutation_on_failure.1
    { validation_blocks := [2, 2, 8, 4]
      block_pair_sums := pairSums [2, 2, 8, 4]
      total_blocks := 6 }
    { validation_blocks := [2, 2, 8, 4]
      block_pair_sums := pairSums [2, 2, 8, 4]
      total_blocks := 6 }
    2 (.invalidBlock 2 7) (by decide)

/-- C4: starting from any `W ≥ 1` initial values, after any stream the
window still holds exactly `W` elements, namely the `W` most recently
accepted values (initial values counted as accepted) in acceptance order,
oldest first; both engines. -/
theorem c4_window_invariant (initial bs : List Block) (hne : initial ≠ []) :
    (∀ h0 h' rs, HashMine.new initial = some h0 →
      feedAll HashMine.tryExtendOne h0 bs = some (h', rs) →
      h'.validation_blocks.length = initial.length ∧
      h'.validation_blocks
        = (initial ++ acceptedOf bs rs).drop (acceptedOf bs rs).length) ∧
    (∀ t' rs, feedAll TwoPtrMine.tryExtendOne (TwoPtrMine.new initial) bs = some (t', rs) →
      t'.validation_blocks.length = initial.length ∧
      t'.validation_blocks
        = (initial ++ acceptedOf bs rs).drop (acceptedOf bs rs).length) := by
  constructor
  · intro h0 h' rs hnew hfeed
    rw [hash_new hne] at hnew
    injection hnew with hnew
    subst hnew
    obtain ⟨m', rs', hfeed', hInv', hlen', hwin', htot'⟩ := hash_run bs _ (hash_new_inv hne)
    rw [hfeed'] at hfeed
    simp only [Option.some.injEq, Prod.mk.injEq] at hfeed
    obtain ⟨hm, hrs⟩ := hfeed
    subst hm
    subst hrs
    refine ⟨?_, hwin'⟩
    rw [hwin']
    exact length_drop_append initial _
  · intro t' rs hfeed
    obtain ⟨m', rs', hfeed', hInv', hlen', hwin', htot'⟩ := two_run bs _ (two_new_inv hne)
    rw [hfeed'] at hfeed
    simp only [Option.some.injEq, Prod.mk.injEq] at hfeed
    obtain ⟨hm, hrs⟩ := hfeed
    subst hm
    subst hrs
    refine ⟨?_, hwin'⟩
    rw [hwin']
    exact length_drop_append initial _

theorem c4_witness :
    ({ validation_blocks := [2, 2, 8, 4]
       ordered_validation_blocks := [2, 2, 4, 8]
       total_blocks := 6 } : TwoPtrMine).validation_blocks.length
        = ([4, 4, 2, 2] : List Block).length ∧
    ({ validation_blocks := [2, 2, 8, 4]
       ordered_validation_blocks := [2, 2, 4, 8]
       total_blocks := 6 } : TwoPtrMine).validation_blocks
      = (([4, 4, 2, 2] : List Block)
          ++ acceptedOf [8, 4, 2] [.ok (), .ok (), .error (.invalidBlock 2 7)]).drop
          (acceptedOf [8, 4, 2] [.ok (), .ok (), .error (.invalidBlock 2 7)]).length :=
  (c4_window_invariant [4, 4, 2, 2] [8, 4, 2] (by decide)).2
    { validation_blocks := [2, 2, 8, 4]
      ordered_validation_blocks := [2, 2, 4, 8]
      total_blocks := 6 }
    [.ok (), .ok (), .error (.invalidBlock 2 7)] (by decide)

/-- C5: the support index always corresponds exactly to the window: the
`HashMine` multiset equals the multiset of sums over unordered pairs of
distinct window positions (`powersetCard 2`, hence `C(W,2)` entries counted
with multiplicity), and the `TwoPtrMine` sorted copy is an ascending sorted
list carrying exactly the window's multiset of values; at construction and
after every run. -/
theorem c5_support_index (initial bs : List Block) (hne : initial ≠ []) :
    (∀ h0, HashMine.new initial = some h0 →
      h0.block_pair_sums
          = (Multiset.powersetCard 2 (↑h0.validation_blocks : Multiset Block)).map
              Multiset.sum ∧
      ∀ h' rs, feedAll HashMine.tryExtendOne h0 bs = some (h', rs) →
        h'.block_pair_sums
          = (Multiset.powersetCard 2 (↑h'.validation_blocks : Multiset Block)).map
              Multiset.sum) ∧
    ((TwoPtrMine.new initial).ordered_validation_blocks.Sorted (· ≤ ·) ∧
      ((TwoPtrMine.new initial).ordered_validation_blocks : Multiset Block)
        = ((TwoPtrMine.new initial).validation_blocks : Multiset Block) ∧
      ∀ t' rs, feedAll TwoPtrMine.tryExtendOne (TwoPtrMine.new initial) bs = some (t', rs) →
        t'.ordered_validation_blocks.Sorted (· ≤ ·) ∧
        (t'.ordered_validation_blocks : Multiset Block)
          = (t'.validation_blocks : Multiset Block)) := by
  constructor
  · intro h0 hnew
    rw [hash_new hne] at hnew
    injection hnew with hnew
    subst hnew
    refine ⟨(pairSums_eq_powersetCard initial).symm ▸ rfl, ?_⟩
    intro h' rs hfeed
    obtain ⟨m', rs', hfeed', hInv', -⟩ := hash_run bs _ (hash_new_inv hne)
    rw [hfeed'] at hfeed
    simp only [Option.some.injEq, Prod.mk.injEq] at hfeed
    obtain ⟨hm, -⟩ := hfeed
    subst hm
    rw [hInv'.1, pairSums_eq_powersetCard]
  · obtain ⟨hsort0, hperm0, -⟩ := two_new_inv hne
    refine ⟨hsort0, Multiset.coe_eq_coe.mpr hperm0, ?_⟩
    intro t' rs hfeed
    obtain ⟨m', rs', hfeed', hInv', -⟩ := two_run bs _ (two_new_inv hne)
    rw [hfeed'] at hfeed
    simp only [Option.some.injEq, Prod.mk.injEq] at hfeed
    obtain ⟨hm, -⟩ := hfeed
    subst hm
    exact ⟨hInv'.1, Multiset.coe_eq_coe.mpr hInv'.2.1⟩

theorem c5_witness :
    ({ validation_blocks := [2, 2, 8, 4]
       ordered_validation_blocks := [2, 2, 4, 8]
       total_blocks := 6 } : TwoPtrMine).ordered_validation_blocks.Sorted (· ≤ ·) ∧
    (({ validation_blocks := [2, 2, 8, 4]
        ordered_validation_blocks := [2, 2, 4, 8]
        total_blocks := 6 } : TwoPtrMine).ordered_validation_blocks : Multiset Block)
      = (({ validation_blocks := [2, 2, 8, 4]
            ordered_validation_blocks := [2, 2, 4, 8]
            total_blocks := 6 } : TwoPtrMine).validation_blocks : Multiset Block) :=
  (c5_support_index [4, 4, 2, 2] [8, 4, 2] (by decide)).2.2.2
    { validation_blocks := [2, 2, 8, 4]
      ordered_validation_blocks := [2, 2, 4, 8]
      total_blocks := 6 }
    [.ok (), .ok (), .error (.invalidBlock 2 7)] (by decide)

/-- C6: `try_extend` applies `try_extend_one` to each value in order: an
empty sequence returns `Ok` with the state untouched, the run succeeds
exactly when every single step succeeds (ending in the all-accepted state),
and an error outcome is the first failing step, with all values before it
already applied (no rollback). -/
theorem c6_try_extend (σ : Type) (step : StepFn σ) :
    (∀ s : σ, tryExtend step s [] = some (s, .ok ())) ∧
    (∀ (bs : List Block) (s s' : σ),
      extendAllOk step s bs = some s' ↔ tryExtend step s bs = some (s', .ok ())) ∧
    (∀ (bs : List Block) (s s' : σ) (e : MineError),
      tryExtend step s bs = some (s', .error e) →
      ∃ k sk, k < bs.length ∧ extendAllOk step s (bs.take k) = some sk ∧
        step sk (bs.getD k 0) = some (s', .error e)) :=
  ⟨fun _ => rfl,
   fun bs s s' => ⟨extendAllOk_tryExtend step bs s s', tryExtend_extendAllOk step bs s s'⟩,
   tryExtend_first_error step⟩

theorem c6_witness :
    ∃ k sk, k < ([8, 4, 2] : List Block).length ∧
      extendAllOk TwoPtrMine.tryExtendOne (TwoPtrMine.new [4, 4, 2, 2])
          (([8, 4, 2] : List Block).take k) = some sk ∧
      TwoPtrMine.tryExtendOne sk (([8, 4, 2] : List Block).getD k 0)
        = some
          ({ validation_blocks := [2, 2, 8, 4]
             ordered_validation_blocks := [2, 2, 4, 8]
             total_blocks := 6 }, .error (.invalidBlock 2 7)) :=
  (c6_try_extend TwoPtrMine TwoPtrMine.tryExtendOne).2.2 [8, 4, 2] _ _ _ (by decide)

/-- C7: `try_create_and_extend` fails with `InvalidInitializationBlocksSize`
when fewer than `W` values are available, and otherwise equals constructing
the engine from the first `W` values and running `try_extend` on the rest. -/
theorem c7_try_create_and_extend (σ : Type) (w : Nat) (mk : List Block → Option σ)
    (step : StepFn σ) (blocks : List Block) :
    (blocks.length < w →
      tryCreateAndExtend w mk step blocks
        = some (.error .invalidInitializationBlocksSize)) ∧
    (w ≤ blocks.length →
      tryCreateAndExtend w mk step blocks
        = match mk (blocks.take w) with
          | none => none
          | some m => (tryExtend step m (blocks.drop w)).map Prod.snd) :=
  ⟨fun h => tryCreateAndExtend_short mk step h,
   fun h => tryCreateAndExtend_enough mk step h⟩

theorem c7_witness :
    (tryCreateAndExtend 5 HashMine.new HashMine.tryExtendOne [1, 2, 3]
      = some (.error .invalidInitializationBlocksSize)) ∧
    (tryCreateAndExtend 2 HashMine.new HashMine.tryExtendOne [1, 2, 3]
      = match HashMine.new (([1, 2, 3] : List Block).take 2) with
        | none => none
        | some m =>
          (tryExtend HashMine.tryExtendOne m (([1, 2, 3] : List Block).drop 2)).map
            Prod.snd) :=
  ⟨(c7_try_create_and_extend HashMine 5 HashMine.new HashMine.tryExtendOne [1, 2, 3]).1
      (by decide),
   (c7_try_create_and_extend HashMine 2 HashMine.new HashMine.tryExtendOne [1, 2, 3]).2
      (by decide)⟩

/-- C8 counterexample: with window size 2 the sequence `[1, 2, 3]` offers at
least 2 elements, yet `try_new` (fed the sequence as a `Vec`, whose array
conversion demands the exact length) rejects it with
`InvalidInitializationBlocksSize`, contradicting the claim that any sequence
with at least `W` elements succeeds using its first `W` elements. -/
theorem c8_counterexample :
    2 ≤ ([1, 2, 3] : List Block).length ∧
      tryNew 2 HashMine.new [1, 2, 3] = .error .invalidInitializationBlocksSize := by
  constructor
  · decide
  · exact tryNew_ne HashMine.new (by decide)

/-- C8 (amended): `try_new` on a sequence succeeds if and only if the
sequence holds exactly `W` elements, in which case the engine is built from
those elements; any other length (fewer or more) yields
`InvalidInitializationBlocksSize`. -/
theorem c8_try_new_amended (σ : Type) (mk : List Block → Option σ) (w : Nat)
    (blocks : List Block) :
    (blocks.length = w → tryNew w mk blocks = .ok (mk blocks)) ∧
    (blocks.length ≠ w →
      tryNew w mk blocks = .error .invalidInitializationBlocksSize) :=
  ⟨fun h => tryNew_exact mk h, fun h => tryNew_ne mk h⟩

theorem c8_witness :
    tryNew 4 HashMine.new [4, 4, 2, 2] = .ok (HashMine.new [4, 4, 2, 2]) :=
  (c8_try_new_amended HashMine HashMine.new 4 [4, 4, 2, 2]).1 (by decide)

/-- C9: concrete scenario A on both engines: from window `[4, 4, 2, 2]`
(counter 4), feeding 8 accepts giving window `[4, 2, 2, 8]`, feeding 4
accepts giving `[2, 2, 8, 4]`, feeding 2 rejects with
`InvalidBlock(2, 7)`. -/
theorem c9_concrete_scenario_a :
    (((HashMine.new [4, 4, 2, 2]).bind fun m =>
        feedAll HashMine.tryExtendOne m [8]).map
          (fun p => (p.1.validation_blocks, p.2))
      = some ([4, 2, 2, 8], [.ok ()])) ∧
    (((HashMine.new [4, 4, 2, 2]).bind fun m =>
        feedAll HashMine.tryExtendOne m [8, 4]).map
          (fun p => (p.1.validation_blocks, p.2))
      = some ([2, 2, 8, 4], [.ok (), .ok ()])) ∧
    (((HashMine.new [4, 4, 2, 2]).bind fun m =>
        feedAll HashMine.tryExtendOne m [8, 4, 2]).map
          (fun p => (p.1.validation_blocks, p.2))
      = some ([2, 2, 8, 4], [.ok (), .ok (), .error (.invalidBlock 2 7)])) ∧
    ((feedAll TwoPtrMine.tryExtendOne (TwoPtrMine.new [4, 4, 2, 2]) [8]).map
        (fun p => (p.1.validation_blocks, p.2))
      = some ([4, 2, 2, 8], [.ok ()])) ∧
    ((feedAll TwoPtrMine.tryExtendOne (TwoPtrMine.new [4, 4, 2, 2]) [8, 4]).map
        (fun p => (p.1.validation_blocks, p.2))
      = some ([2, 2, 8, 4], [.ok (), .ok ()])) ∧
    ((feedAll TwoPtrMine.tryExtendOne (TwoPtrMine.new [4, 4, 2, 2]) [8, 4, 2]).map
        (fun p => (p.1.validation_blocks, p.2))
      = some ([2, 2, 8, 4], [.ok (), .ok (), .error (.invalidBlock 2 7)])) :=
  ⟨by decide, by decide, by decide, by decide, by decide, by decide⟩

/-- C10: with a window of size `W ≥ 1`, no operation panics: construction
succeeds and every run of `try_extend_one` steps returns (`pop_front` always
finds an element, the binary search always locates the evicted block so the
positional removal is in bounds, and the construction slice bound is in
bounds). -/
theorem c10_no_panic (initial : List Block) (hW : initial ≠ []) (bs : List Block) :
    ((HashMine.new initial).bind fun m =>
      feedAll HashMine.tryExtendOne m bs).isSome = true ∧
    (feedAll TwoPtrMine.tryExtendOne (TwoPtrMine.new initial) bs).isSome = true := by
  constructor
  · rw [hash_new hW]
    obtain ⟨m', rs, hfeed, -⟩ := hash_run bs _ (hash_new_inv hW)
    show (feedAll HashMine.tryExtendOne _ bs).isSome = true
    rw [hfeed]
    rfl
  · obtain ⟨m', rs, hfeed, -⟩ := two_run bs _ (two_new_inv hW)
    rw [hfeed]
    rfl

theorem c10_witness :
    ((HashMine.new [4, 4, 2, 2]).bind fun m =>
      feedAll HashMine.tryExtendOne m [8, 4, 2, 0]).isSome = true ∧
    (feedAll TwoPtrMine.tryExtendOne (TwoPtrMine.new [4, 4, 2, 2]) [8, 4, 2, 0]).isSome
      = true :=
  c10_no_panic [4, 4, 2, 2] (by decide) [8, 4, 2, 0]

end Tmmt
